import Mathlib

/-!
Shallow embedding of the `chemical_composition` crate (files `element.rs` and
`composition.rs`).  Rust `HashMap`s are modelled as association lists operated
on through the crate's own equality predicates; Rust `f64` isotope masses are
modelled as exact rationals (no claim below depends on rounding); Rust panics
(`unwrap`, `Index` on a missing key) are modelled as `Option`/`Except`
failures.
-/

/-- `Isotope` from `element.rs`: one nuclide's mass, abundance, neutron count
and neutron shift. -/
structure Isotope where
  mass : ℚ
  abundance : ℚ
  neutrons : Nat
  neutron_shift : Int
deriving DecidableEq

/-- `Element` from `element.rs`: a symbol, its isotope catalog (a map from
neutron count to `Isotope`), the designated most-abundant isotope key, and
derived data. -/
structure Element where
  symbol : String
  isotopes : List (Nat × Isotope)
  most_abundant_isotope : Nat
  most_abundant_mass : ℚ
  min_neutron_shift : Int
  max_neutron_shift : Int
  element_number : Nat
deriving DecidableEq

/-- `PartialEq for Element`: compares `symbol` and `most_abundant_isotope`
only. -/
def elementEq (a b : Element) : Bool :=
  if a.symbol != b.symbol then false
  else if a.most_abundant_isotope != b.most_abundant_isotope then false
  else true

/-- `Hash for Element` feeds only `self.symbol` to the hasher; the hash of an
`Element` is therefore a function of this string alone. -/
def elementHashInput (e : Element) : String :=
  e.symbol

/-- Lookup in `Element.isotopes` (`element.isotopes[&k]`; the Rust index
panics when the key is absent, modelled by `none`). -/
def lookupIsotope (e : Element) (k : Nat) : Option Isotope :=
  (e.isotopes.find? (fun p => p.1 == k)).map (·.2)

/-- `ElementSpecification` from `composition.rs`: an element together with an
isotope number (0 = most abundant). -/
structure ElementSpecification where
  element : Element
  isotope : Nat
deriving DecidableEq

/-- `PartialEq for ElementSpecification`: element equality (per
`PartialEq for Element`) and isotope equality jointly. -/
def esEq (a b : ElementSpecification) : Bool :=
  if !(elementEq a.element b.element) then false
  else a.isotope == b.isotope

/-- `Hash for ElementSpecification` feeds only `self.element` to the hasher
(which in turn feeds only the symbol): the hash of a specification is a
function of this string alone. -/
def esHashInput (s : ElementSpecification) : String :=
  elementHashInput s.element

/-- The data `PartialEq for ElementSpecification` actually compares:
`esEq a b = true` iff `canonKey a = canonKey b`. -/
def canonKey (s : ElementSpecification) : String × Nat × Nat :=
  (s.element.symbol, s.element.most_abundant_isotope, s.isotope)

/-- `PeriodicTable.elements` is a map from symbol to `Element`. -/
abbrev PeriodicTable := List (String × Element)

/-- `Index<&str> for PeriodicTable` is `self.elements[i]`; the `HashMap`
index panics when the symbol is absent, modelled by `none`. -/
def lookupTable (pt : PeriodicTable) (sym : String) : Option Element :=
  (pt.find? (fun p => p.1 == sym)).map (·.2)

/-- Failure modes of `ElementSpecification::parse`: the returned
`Err("Unclosed [ in element specifier")`, and the two panics (periodic-table
index on an unknown symbol; `unwrap` of `parse::<u16>`). -/
inductive ParseFailure where
  | unclosedBracket : ParseFailure
  | elementNotFound : ParseFailure
  | badIsotope : ParseFailure
deriving DecidableEq

/-- The scan loop of `ElementSpecification::parse`: walks the characters with
their indices, recording `elt_end` at each `[` (erroring when `n > i` fails)
and `iso_end` at each `]`.  State is `(elt_end, iso_start, iso_end)`. -/
def scanBrackets (n : Nat) : Nat → List Char → Nat × Nat × Nat →
    Except ParseFailure (Nat × Nat × Nat)
  | _, [], st => .ok st
  | i, c :: rest, (elt_end, iso_start, iso_end) =>
    if c = '[' then
      if n > i then
        scanBrackets n (i + 1) rest (i, i + 1, iso_end)
      else
        .error .unclosedBracket
    else if c = ']' then
      scanBrackets n (i + 1) rest (elt_end, iso_start, i)
    else
      scanBrackets n (i + 1) rest (elt_end, iso_start, iso_end)

/-- `str::parse::<u16>` on the isotope digits: a nonempty all-digit string in
`u16` range, else failure. -/
def parseU16 (cs : List Char) : Option Nat :=
  if cs.isEmpty then none
  else if cs.all (fun c => c.isDigit) then
    let v := cs.foldl (fun acc c => acc * 10 + (c.toNat - 48)) 0
    if v < 65536 then some v else none
  else none

/-- The slice `string[a..b]` (ASCII, so char indices coincide with byte
indices). -/
def sliceChars (cs : List Char) (a b : Nat) : List Char :=
  (cs.drop a).take (b - a)

/-- `ElementSpecification::parse`, over an explicit periodic table (the crate
uses the global `PERIODIC_TABLE`): scan for brackets, slice out the symbol,
look it up, then parse the isotope digits when the `[`/`]` bounds differ. -/
def ElementSpecification.parse (pt : PeriodicTable) (s : String) :
    Except ParseFailure ElementSpecification :=
  let cs := s.data
  let n := cs.length
  match scanBrackets n 0 cs (n, n, n) with
  | .error e => .error e
  | .ok (elt_end, iso_start, iso_end) =>
    let elt_sym := String.mk (sliceChars cs 0 elt_end)
    match lookupTable pt elt_sym with
    | none => .error .elementNotFound
    | some element =>
      if iso_start != iso_end then
        match parseU16 (sliceChars cs iso_start iso_end) with
        | none => .error .badIsotope
        | some iso => .ok ⟨element, iso⟩
      else
        .ok ⟨element, 0⟩

/-- The symbol substring `parse` submits to the periodic-table lookup. -/
def parsedSymbol (s : String) : String :=
  let cs := s.data
  let n := cs.length
  match scanBrackets n 0 cs (n, n, n) with
  | .error _ => ""
  | .ok (elt_end, _, _) => String.mk (sliceChars cs 0 elt_end)

/-- One entry of the `composition` map. -/
abbrev CompEntry := ElementSpecification × Int

/-- `HashMap::get` on the composition map: the entry whose key is `esEq` to
the probe (unique in an actual `HashMap`; first match in the list model). -/
def lookupMap (m : List CompEntry) (s : ElementSpecification) : Option Int :=
  (m.find? (fun p => esEq p.1 s)).map (·.2)

/-- `HashMap::insert` on the composition map: replace the value at a key
`esEq` to the probe (keeping the stored key, as `HashMap` does), else add a
new entry. -/
def insertMap (m : List CompEntry) (s : ElementSpecification) (v : Int) :
    List CompEntry :=
  match m with
  | [] => [(s, v)]
  | p :: rest =>
    if esEq p.1 s then (p.1, v) :: rest
    else p :: insertMap rest s v

/-- `HashMap::contains`-style membership used to phrase presence of a key. -/
def containsKeyL (m : List CompEntry) (s : ElementSpecification) : Bool :=
  m.any (fun p => esEq p.1 s)

/-- `ChemicalComposition` from `composition.rs`: counts plus the lazily
computed mass cache. -/
structure ChemicalComposition where
  composition : List CompEntry
  mass_cache : Option ℚ
deriving DecidableEq

/-- `ChemicalComposition::new` (`Default`): empty map, no cached mass. -/
def ChemicalComposition.new : ChemicalComposition :=
  ⟨[], none⟩

/-- `ChemicalComposition::get`: the stored count, or 0 when absent. -/
def ChemicalComposition.get (c : ChemicalComposition)
    (s : ElementSpecification) : Int :=
  match lookupMap c.composition s with
  | some i => i
  | none => 0

/-- `ChemicalComposition::set`: insert the count and clear the mass cache. -/
def ChemicalComposition.set (c : ChemicalComposition)
    (s : ElementSpecification) (v : Int) : ChemicalComposition :=
  ⟨insertMap c.composition s v, none⟩

/-- `ChemicalComposition::inc`: `set(spec, get(spec) + count)`. -/
def ChemicalComposition.inc (c : ChemicalComposition)
    (s : ElementSpecification) (v : Int) : ChemicalComposition :=
  c.set s (c.get s + v)

/-- Presence of a key in a composition. -/
def ChemicalComposition.containsKey (c : ChemicalComposition)
    (s : ElementSpecification) : Bool :=
  containsKeyL c.composition s

/-- `ChemicalComposition::calc_mass`: sum, over the entries, of the per-atom
mass (most-abundant isotope when `isotope == 0`, else that isotope) times the
count; `none` models the panic on a missing isotope key. -/
def ChemicalComposition.calc_mass (c : ChemicalComposition) : Option ℚ :=
  c.composition.foldl
    (fun acc p =>
      match acc with
      | none => none
      | some total =>
        let e := p.1.element
        let perAtom :=
          if p.1.isotope = 0 then lookupIsotope e e.most_abundant_isotope
          else lookupIsotope e p.1.isotope
        match perAtom with
        | none => none
        | some iso => some (total + iso.mass * (p.2 : ℚ)))
    (some 0)

/-- `ChemicalComposition::mass`: the cached value when present, else
`calc_mass` — without storing it (`&self`). -/
def ChemicalComposition.mass (c : ChemicalComposition) : Option ℚ :=
  match c.mass_cache with
  | none => c.calc_mass
  | some val => some val

/-- `ChemicalComposition::fmass`: on a cache miss compute `mass`, store it
and return it together with the updated state; on a hit return the cached
value and the unchanged state.  `none` models the panic inside the mass
computation. -/
def ChemicalComposition.fmass (c : ChemicalComposition) :
    Option (ℚ × ChemicalComposition) :=
  match c.mass_cache with
  | none =>
    match c.mass with
    | none => none
    | some total => some (total, ⟨c.composition, some total⟩)
  | some val => some (val, c)

/-- `ChemicalComposition::_add_from`: `inc` this composition by every entry
of `other`. -/
def ChemicalComposition.add_from (c other : ChemicalComposition) :
    ChemicalComposition :=
  other.composition.foldl (fun acc p => acc.inc p.1 p.2) c

/-- `ChemicalComposition::_sub_from`: `inc` this composition by the negation
of every entry of `other`. -/
def ChemicalComposition.sub_from (c other : ChemicalComposition) :
    ChemicalComposition :=
  other.composition.foldl (fun acc p => acc.inc p.1 (-p.2)) c

/-- `self.composition.entry(key).or_insert(0) *= scaler`: multiply in place
at an existing key, or insert `0 * scaler` at a fresh one. -/
def mulEntry (m : List CompEntry) (s : ElementSpecification) (k : Int) :
    List CompEntry :=
  match m with
  | [] => [(s, 0 * k)]
  | p :: rest =>
    if esEq p.1 s then (p.1, p.2 * k) :: rest
    else p :: mulEntry rest s k

/-- `ChemicalComposition::_mul_by`: collect the keys, then run the
entry-multiply at each key.  Note: the mass cache is NOT touched. -/
def ChemicalComposition.mul_by (c : ChemicalComposition) (k : Int) :
    ChemicalComposition :=
  let keys := c.composition.map (·.1)
  ⟨keys.foldl (fun m key => mulEntry m key k) c.composition, c.mass_cache⟩

/-- `Add for &ChemicalComposition`: clone then `_add_from`. -/
def ChemicalComposition.add (a b : ChemicalComposition) : ChemicalComposition :=
  a.add_from b

/-- `Sub for &ChemicalComposition`: clone then `_sub_from`. -/
def ChemicalComposition.sub (a b : ChemicalComposition) : ChemicalComposition :=
  a.sub_from b

/-- `Mul<i32> for &ChemicalComposition`: clone then `_mul_by`. -/
def ChemicalComposition.mul (a : ChemicalComposition) (k : Int) :
    ChemicalComposition :=
  a.mul_by k

/-- `Index<&ElementSpecification> for ChemicalComposition`:
`self.composition.get(key)` followed by `unwrap`; `none` models the panic on
an absent key. -/
def ChemicalComposition.index (c : ChemicalComposition)
    (s : ElementSpecification) : Option Int :=
  lookupMap c.composition s

/-- `PartialEq for ChemicalComposition` is `HashMap` equality of the
`composition` fields: equal sizes, and every entry of the left map is found
in the right map with an equal value.  The mass cache does not participate. -/
def ccEq (a b : ChemicalComposition) : Bool :=
  a.composition.length == b.composition.length &&
    a.composition.all (fun p =>
      match lookupMap b.composition p.1 with
      | some w => p.2 == w
      | none => false)

/-- Representation invariant of the list model: an actual `HashMap` holds at
most one entry per `esEq`-class of keys. -/
def wfKeys : List CompEntry → Bool
  | [] => true
  | p :: rest => rest.all (fun q => !(esEq p.1 q.1)) && wfKeys rest

/-- A composition whose entry list has pairwise `esEq`-distinct keys, as every
composition built through the crate's API does. -/
abbrev ChemicalComposition.WF (c : ChemicalComposition) : Prop :=
  wfKeys c.composition = true

/-! ### Basic lemmas about the crate's key equality -/

theorem esEq_eq_true_iff (a b : ElementSpecification) :
    esEq a b = true ↔ canonKey a = canonKey b := by
  simp only [esEq, elementEq, canonKey, bne_iff_ne, ne_eq, ite_not,
    Prod.mk.injEq]
  by_cases h1 : a.element.symbol = b.element.symbol <;>
    by_cases h2 : a.element.most_abundant_isotope = b.element.most_abundant_isotope <;>
      simp [h1, h2, beq_iff_eq]

theorem esEq_refl (a : ElementSpecification) : esEq a a = true := by
  rw [esEq_eq_true_iff]

theorem esEq_eq_false_iff (a b : ElementSpecification) :
    esEq a b = false ↔ canonKey a ≠ canonKey b := by
  rw [← not_iff_not, Bool.not_eq_false, esEq_eq_true_iff, not_not]

theorem lookupMap_cons (p : CompEntry) (rest : List CompEntry)
    (t : ElementSpecification) :
    lookupMap (p :: rest) t =
      if esEq p.1 t = true then some p.2 else lookupMap rest t := by
  simp only [lookupMap, List.find?]
  cases h : esEq p.1 t <;> simp [h]

theorem lookupMap_congr (m : List CompEntry) {s t : ElementSpecification}
    (h : canonKey s = canonKey t) : lookupMap m s = lookupMap m t := by
  induction m with
  | nil => rfl
  | cons p rest ih =>
    rw [lookupMap_cons, lookupMap_cons]
    by_cases hp : esEq p.1 s = true
    · have hpt : esEq p.1 t = true := by
        rw [esEq_eq_true_iff] at hp ⊢; rw [hp, h]
      rw [if_pos hp, if_pos hpt]
    · have hpt : ¬ esEq p.1 t = true := by
        intro hc
        rw [esEq_eq_true_iff] at hc
        exact hp ((esEq_eq_true_iff _ _).mpr (by rw [hc, h]))
      rw [if_neg hp, if_neg hpt]
      exact ih

theorem lookupMap_insert (m : List CompEntry) (k : ElementSpecification)
    (v : Int) (t : ElementSpecification) :
    lookupMap (insertMap m k v) t =
      if canonKey k = canonKey t then some v else lookupMap m t := by
  induction m with
  | nil =>
    show lookupMap [(k, v)] t = _
    rw [lookupMap_cons]
    by_cases h : canonKey k = canonKey t
    · rw [if_pos ((esEq_eq_true_iff k t).mpr h), if_pos h]
    · rw [if_neg (fun hc => h ((esEq_eq_true_iff k t).mp hc)), if_neg h]
  | cons p rest ih =>
    simp only [insertMap]
    by_cases hp : esEq p.1 k = true
    · rw [if_pos hp, lookupMap_cons, lookupMap_cons]
      by_cases ht : canonKey k = canonKey t
      · have hpt : esEq p.1 t = true := by
          rw [esEq_eq_true_iff] at hp ⊢; rw [hp, ht]
        rw [if_pos hpt, if_pos hpt, if_pos ht]
      · have hpt : ¬ esEq p.1 t = true := by
          intro hc
          rw [esEq_eq_true_iff] at hp hc
          exact ht (by rw [← hp, hc])
        rw [if_neg hpt, if_neg hpt, if_neg ht]
    · rw [if_neg hp, lookupMap_cons, lookupMap_cons]
      by_cases hpt : esEq p.1 t = true
      · have ht : ¬ canonKey k = canonKey t := by
          intro hc
          rw [esEq_eq_true_iff] at hpt
          exact hp ((esEq_eq_true_iff _ _).mpr (by rw [hpt, hc]))
        rw [if_pos hpt, if_pos hpt, if_neg ht]
      · rw [if_neg hpt, if_neg hpt, ih]

theorem get_set (c : ChemicalComposition) (k : ElementSpecification) (v : Int)
    (t : ElementSpecification) :
    (c.set k v).get t =
      if canonKey k = canonKey t then v else c.get t := by
  simp only [ChemicalComposition.get, ChemicalComposition.set,
    lookupMap_insert]
  by_cases h : canonKey k = canonKey t <;> simp [h]

theorem get_congr (c : ChemicalComposition) {s t : ElementSpecification}
    (h : canonKey s = canonKey t) : c.get s = c.get t := by
  simp only [ChemicalComposition.get, lookupMap_congr c.composition h]

theorem get_inc (c : ChemicalComposition) (k : ElementSpecification) (v : Int)
    (t : ElementSpecification) :
    (c.inc k v).get t =
      c.get t + (if canonKey k = canonKey t then v else 0) := by
  simp only [ChemicalComposition.inc, get_set]
  by_cases h : canonKey k = canonKey t
  · rw [if_pos h, if_pos h, get_congr c h]
  · rw [if_neg h, if_neg h, add_zero]

/-! ### The effect of `_add_from` / `_sub_from` on counts -/

/-- Sum of the images under `f` of the counts of the entries of `l` whose key
matches `t`. -/
def matchSum (f : Int → Int) (l : List CompEntry)
    (t : ElementSpecification) : Int :=
  (l.map (fun p => if canonKey p.1 = canonKey t then f p.2 else 0)).sum

theorem get_foldl_inc (f : Int → Int) (l : List CompEntry)
    (c : ChemicalComposition) (t : ElementSpecification) :
    (l.foldl (fun acc p => acc.inc p.1 (f p.2)) c).get t =
      c.get t + matchSum f l t := by
  induction l generalizing c with
  | nil => simp [matchSum]
  | cons p rest ih =>
    simp only [List.foldl_cons, ih, get_inc, matchSum, List.map_cons,
      List.sum_cons]
    by_cases h : canonKey p.1 = canonKey t <;> simp [h] <;> ring

theorem get_add_from (a b : ChemicalComposition) (t : ElementSpecification) :
    (a.add_from b).get t = a.get t + matchSum id b.composition t := by
  have := get_foldl_inc id b.composition a t
  simpa [ChemicalComposition.add_from] using this

theorem get_sub_from (a b : ChemicalComposition) (t : ElementSpecification) :
    (a.sub_from b).get t = a.get t - matchSum id b.composition t := by
  have h := get_foldl_inc (fun v => -v) b.composition a t
  have hneg : matchSum (fun v => -v) b.composition t =
      -(matchSum id b.composition t) := by
    simp only [matchSum]
    induction b.composition with
    | nil => simp
    | cons p rest ih =>
      simp only [List.map_cons, List.sum_cons, ih]
      by_cases hc : canonKey p.1 = canonKey t <;> simp [hc] <;> ring
  rw [ChemicalComposition.sub_from]
  rw [show (fun (acc : ChemicalComposition) (p : CompEntry) =>
      acc.inc p.1 (-p.2)) = fun acc p => acc.inc p.1 ((fun v => -v) p.2)
    from rfl] at *
  rw [h, hneg]
  ring

/-! ### Presence of keys -/

theorem containsKeyL_eq_isSome (m : List CompEntry)
    (s : ElementSpecification) :
    containsKeyL m s = (lookupMap m s).isSome := by
  induction m with
  | nil => rfl
  | cons p rest ih =>
    rw [containsKeyL, List.any_cons, lookupMap_cons]
    cases h : esEq p.1 s <;> simp [h]
    exact ih

theorem lookupMap_isSome_iff (m : List CompEntry) (s : ElementSpecification) :
    (lookupMap m s).isSome = true ↔
      canonKey s ∈ m.map (fun p => canonKey p.1) := by
  induction m with
  | nil => simp [lookupMap]
  | cons p rest ih =>
    rw [lookupMap_cons]
    by_cases h : esEq p.1 s = true
    · simp [h, ((esEq_eq_true_iff _ _).mp h).symm]
    · have hne : ¬ canonKey p.1 = canonKey s := fun hc =>
        h ((esEq_eq_true_iff _ _).mpr hc)
      rw [if_neg h, List.map_cons, ih]
      simp only [List.mem_cons]
      constructor
      · exact Or.inr
      · rintro (hc | hc)
        · exact absurd hc.symm hne
        · exact hc

/-! ### The effect of `_mul_by` on counts -/

theorem mulEntry_cons_ne (p : CompEntry) (rest : List CompEntry)
    (s : ElementSpecification) (k : Int) (h : esEq p.1 s = false) :
    mulEntry (p :: rest) s k = p :: mulEntry rest s k := by
  simp [mulEntry, h]

theorem mulFold_cons (ks : List ElementSpecification) (p : CompEntry)
    (m : List CompEntry) (k : Int) :
    (∀ q ∈ ks, esEq p.1 q = false) →
    ks.foldl (fun acc key => mulEntry acc key k) (p :: m) =
      p :: ks.foldl (fun acc key => mulEntry acc key k) m := by
  induction ks generalizing m with
  | nil => intro _; rfl
  | cons q ks ih =>
    intro h
    simp only [List.foldl_cons]
    rw [mulEntry_cons_ne p m q k (h q (List.mem_cons_self q ks))]
    exact ih (mulEntry m q k) (fun r hr => h r (List.mem_cons_of_mem q hr))

theorem mulFold_eq_map (m : List CompEntry) (k : Int) :
    wfKeys m = true →
    (m.map (fun p => p.1)).foldl (fun acc key => mulEntry acc key k) m =
      m.map (fun p => (p.1, p.2 * k)) := by
  induction m with
  | nil => intro _; rfl
  | cons p rest ih =>
    intro h
    simp only [wfKeys, Bool.and_eq_true] at h
    have hdist : ∀ q ∈ rest.map (fun x : CompEntry => x.1),
        esEq p.1 q = false := by
      intro q hq
      obtain ⟨r, hr, rfl⟩ := List.mem_map.mp hq
      have := (List.all_eq_true.mp h.1) r hr
      simpa using this
    simp only [List.map_cons, List.foldl_cons]
    rw [show mulEntry (p :: rest) p.1 k = (p.1, p.2 * k) :: rest by
      simp [mulEntry, esEq_refl]]
    rw [mulFold_cons (rest.map (fun p => p.1)) (p.1, p.2 * k) rest k hdist]
    rw [ih h.2]

theorem mul_by_eq_map (c : ChemicalComposition) (k : Int) (h : c.WF) :
    c.mul_by k =
      ⟨c.composition.map (fun p => (p.1, p.2 * k)), c.mass_cache⟩ := by
  rw [ChemicalComposition.WF] at h
  rw [ChemicalComposition.mul_by]
  exact congrArg (fun l => ChemicalComposition.mk l c.mass_cache)
    (mulFold_eq_map c.composition k h)

theorem lookupMap_map_mul (m : List CompEntry) (k : Int)
    (t : ElementSpecification) :
    lookupMap (m.map (fun p => (p.1, p.2 * k))) t =
      (lookupMap m t).map (· * k) := by
  induction m with
  | nil => rfl
  | cons p rest ih =>
    rw [List.map_cons, lookupMap_cons, lookupMap_cons]
    cases h : esEq p.1 t <;> simp [h, ih]

/-! ### Well-formedness and `HashMap` equality -/

/-- The canonical key list of a composition map. -/
def ckeys (m : List CompEntry) : List (String × Nat × Nat) :=
  m.map (fun p => canonKey p.1)

theorem wfKeys_iff_nodup (m : List CompEntry) :
    wfKeys m = true ↔ (ckeys m).Nodup := by
  induction m with
  | nil => simp [wfKeys, ckeys]
  | cons p rest ih =>
    simp only [wfKeys, Bool.and_eq_true, List.all_eq_true, ckeys,
      List.map_cons, List.nodup_cons, ih]
    constructor
    · rintro ⟨h1, h2⟩
      refine ⟨?_, h2⟩
      intro hmem
      obtain ⟨q, hq, hqc⟩ := List.mem_map.mp hmem
      have := h1 q hq
      rw [Bool.not_eq_eq_eq_not, Bool.not_true, esEq_eq_false_iff] at this
      exact this hqc.symm
    · rintro ⟨h1, h2⟩
      refine ⟨?_, h2⟩
      intro q hq
      rw [Bool.not_eq_eq_eq_not, Bool.not_true, esEq_eq_false_iff]
      intro hc
      exact h1 (List.mem_map.mpr ⟨q, hq, hc.symm⟩)

theorem lookupMap_eq_some (m : List CompEntry) (s : ElementSpecification)
    (v : Int) (h : lookupMap m s = some v) :
    ∃ p ∈ m, esEq p.1 s = true ∧ p.2 = v := by
  rw [lookupMap] at h
  obtain ⟨p, hfind, hv⟩ := Option.map_eq_some'.mp h
  have hps := List.find?_some hfind
  exact ⟨p, List.mem_of_find?_eq_some hfind, by simpa using hps, hv⟩

theorem wf_lookup_self (m : List CompEntry) (p : CompEntry)
    (hwf : wfKeys m = true) (hp : p ∈ m) :
    lookupMap m p.1 = some p.2 := by
  induction m with
  | nil => cases hp
  | cons q rest ih =>
    simp only [wfKeys, Bool.and_eq_true, List.all_eq_true] at hwf
    rw [lookupMap_cons]
    rcases List.mem_cons.mp hp with rfl | hp'
    · rw [if_pos (esEq_refl _)]
    · have hqp : esEq q.1 p.1 = false := by
        have := hwf.1 p hp'
        rwa [Bool.not_eq_eq_eq_not, Bool.not_true] at this
      rw [if_neg (by rw [hqp]; exact Bool.false_ne_true)]
      exact ih hwf.2 hp'

theorem ccEq_submap (a b : ChemicalComposition) (h : ccEq a b = true)
    (s : ElementSpecification) (v : Int)
    (hv : lookupMap a.composition s = some v) :
    lookupMap b.composition s = some v := by
  rw [ccEq, Bool.and_eq_true, List.all_eq_true] at h
  obtain ⟨p, hp, hes, hpv⟩ := lookupMap_eq_some _ _ _ hv
  have := h.2 p hp
  rcases hlb : lookupMap b.composition p.1 with _ | w
  · rw [hlb] at this; cases this
  · rw [hlb] at this
    have hw : p.2 = w := by simpa using this
    have hcan : canonKey s = canonKey p.1 :=
      ((esEq_eq_true_iff _ _).mp hes).symm
    rw [lookupMap_congr b.composition hcan, hlb, ← hw, hpv]

theorem ccEq_ckeys_subset (a b : ChemicalComposition) (h : ccEq a b = true) :
    ∀ x ∈ ckeys a.composition, x ∈ ckeys b.composition := by
  rw [ccEq, Bool.and_eq_true, List.all_eq_true] at h
  intro x hx
  obtain ⟨p, hp, rfl⟩ := List.mem_map.mp hx
  have := h.2 p hp
  rcases hlb : lookupMap b.composition p.1 with _ | w
  · rw [hlb] at this; cases this
  · have : (lookupMap b.composition p.1).isSome = true := by
      rw [hlb]; rfl
    exact (lookupMap_isSome_iff _ _).mp this

theorem ccEq_length (a b : ChemicalComposition) (h : ccEq a b = true) :
    a.composition.length = b.composition.length := by
  rw [ccEq, Bool.and_eq_true] at h
  exact beq_iff_eq.mp h.1

theorem ccEq_ckeys_finset_eq (a b : ChemicalComposition)
    (ha : a.WF) (hb : b.WF) (h : ccEq a b = true) :
    (ckeys a.composition).toFinset = (ckeys b.composition).toFinset := by
  have hna := (wfKeys_iff_nodup _).mp ha
  have hnb := (wfKeys_iff_nodup _).mp hb
  have hsub : (ckeys a.composition).toFinset ⊆ (ckeys b.composition).toFinset := by
    intro x hx
    rw [List.mem_toFinset] at hx ⊢
    exact ccEq_ckeys_subset a b h x hx
  have hca : (ckeys a.composition).toFinset.card = a.composition.length := by
    rw [List.toFinset_card_of_nodup hna, ckeys, List.length_map]
  have hcb : (ckeys b.composition).toFinset.card = b.composition.length := by
    rw [List.toFinset_card_of_nodup hnb, ckeys, List.length_map]
  exact Finset.eq_of_subset_of_card_le hsub
    (by rw [hca, hcb, ccEq_length a b h])

theorem ccEq_lookup_eq (a b : ChemicalComposition)
    (ha : a.WF) (hb : b.WF) (h : ccEq a b = true)
    (s : ElementSpecification) :
    lookupMap a.composition s = lookupMap b.composition s := by
  rcases hla : lookupMap a.composition s with _ | v
  · rcases hlb : lookupMap b.composition s with _ | w
    · rfl
    · exfalso
      have hmemb : canonKey s ∈ ckeys b.composition :=
        (lookupMap_isSome_iff _ _).mp (by rw [hlb]; rfl)
      have hmema : canonKey s ∈ ckeys a.composition := by
        have hf := ccEq_ckeys_finset_eq a b ha hb h
        rw [← List.mem_toFinset, ← hf, List.mem_toFinset] at hmemb
        exact hmemb
      have := (lookupMap_isSome_iff a.composition s).mpr hmema
      rw [hla] at this; cases this
  · rw [ccEq_submap a b h s v hla]

theorem lookup_eq_ccEq (a b : ChemicalComposition)
    (ha : a.WF) (hb : b.WF)
    (h : ∀ s, lookupMap a.composition s = lookupMap b.composition s) :
    ccEq a b = true := by
  rw [ccEq, Bool.and_eq_true]
  have hmem : ∀ x, x ∈ ckeys a.composition ↔ x ∈ ckeys b.composition := by
    intro x
    constructor
    · intro hx
      obtain ⟨p, hp, rfl⟩ := List.mem_map.mp hx
      have h1 : (lookupMap a.composition p.1).isSome = true :=
        (lookupMap_isSome_iff _ _).mpr (List.mem_map.mpr ⟨p, hp, rfl⟩)
      rw [h p.1] at h1
      exact (lookupMap_isSome_iff _ _).mp h1
    · intro hx
      obtain ⟨p, hp, rfl⟩ := List.mem_map.mp hx
      have h1 : (lookupMap b.composition p.1).isSome = true :=
        (lookupMap_isSome_iff _ _).mpr (List.mem_map.mpr ⟨p, hp, rfl⟩)
      rw [← h p.1] at h1
      exact (lookupMap_isSome_iff _ _).mp h1
  constructor
  · have hfin : (ckeys a.composition).toFinset =
        (ckeys b.composition).toFinset := by
      apply Finset.ext
      intro x
      rw [List.mem_toFinset, List.mem_toFinset]
      exact hmem x
    have hna := (wfKeys_iff_nodup _).mp ha
    have hnb := (wfKeys_iff_nodup _).mp hb
    have hlen : (ckeys a.composition).length = (ckeys b.composition).length := by
      rw [← List.toFinset_card_of_nodup hna, ← List.toFinset_card_of_nodup hnb,
        hfin]
    rw [ckeys, ckeys, List.length_map, List.length_map] at hlen
    exact beq_iff_eq.mpr hlen
  · rw [List.all_eq_true]
    intro p hp
    have hself := wf_lookup_self a.composition p ha hp
    have hbp : lookupMap b.composition p.1 = some p.2 := by
      rw [← h p.1]; exact hself
    rw [hbp]
    simp

/-! ### The bracket scan cannot fail -/

theorem scanBrackets_ok (n : Nat) (cs : List Char) :
    ∀ (i : Nat) (st : Nat × Nat × Nat), i + cs.length ≤ n →
      ∃ st', scanBrackets n i cs st = .ok st' := by
  induction cs with
  | nil => exact fun i st _ => ⟨st, rfl⟩
  | cons c rest ih =>
    intro i st h
    rw [List.length_cons] at h
    obtain ⟨e1, i1, i2⟩ := st
    rw [scanBrackets]
    by_cases hc : c = '['
    · rw [if_pos hc, if_pos (by omega)]
      exact ih (i + 1) _ (by omega)
    · rw [if_neg hc]
      by_cases hc2 : c = ']'
      · rw [if_pos hc2]
        exact ih (i + 1) _ (by omega)
      · rw [if_neg hc2]
        exact ih (i + 1) _ (by omega)

theorem parse_elementNotFound (pt : PeriodicTable) (s : String)
    (h : lookupTable pt (parsedSymbol s) = none) :
    ElementSpecification.parse pt s = .error .elementNotFound := by
  obtain ⟨⟨e1, i1, i2⟩, hscan⟩ := scanBrackets_ok s.data.length s.data 0
    (s.data.length, s.data.length, s.data.length) (by omega)
  rw [parsedSymbol] at h
  rw [ElementSpecification.parse]
  simp only [hscan] at h ⊢
  rw [h]

/-! ### Concrete fixtures (table data is load-time input, not crate code) -/

/-- A hydrogen-like element: one isotope, neutron key 1, mass 1. -/
def isoH1 : Isotope := ⟨1, 1, 1, 0⟩

/-- Fixture element "H". -/
def eH : Element := ⟨"H", [(1, isoH1)], 1, 1, 0, 0, 1⟩

/-- Fixture element "Fe". -/
def eFe : Element := ⟨"Fe", [(56, ⟨56, 1, 30, 0⟩)], 56, 56, 0, 0, 26⟩

/-- Fixture periodic table holding H and Fe. -/
def pt0 : PeriodicTable := [("H", eH), ("Fe", eFe)]

/-- The specification `H` (natural isotope). -/
def hSpec : ElementSpecification := ⟨eH, 0⟩

/-- The specification `Fe` (natural isotope). -/
def feSpec : ElementSpecification := ⟨eFe, 0⟩

/-- The composition `{H: 1}` built through the API (`new` then `set`). -/
def cH1 : ChemicalComposition := ChemicalComposition.new.set hSpec 1

/-- `{H: 1}` with its mass 1 cached, the state `cH1.fmass` produces. -/
def cFresh : ChemicalComposition := ⟨[(hSpec, 1)], some 1⟩

/-! ### The claims -/

/-- Claim C1 (code bug at the failing input): `fmass` on `{H: 1}` caches the
mass 1; the mutating `*= 2` (`_mul_by`) then doubles the count but leaves
`mass_cache` set — `calc_mass` of the result is 2, yet `mass()` still reports
the stale cached 1.  The cache-coherence invariant (every mutating operation
clears the cache) is violated by `_mul_by`. -/
theorem c1_mul_by_leaves_stale_cache :
    cH1.fmass = some (1, cFresh) ∧
    (cFresh.mul_by 2).mass_cache = some 1 ∧
    (cFresh.mul_by 2).calc_mass = some 2 ∧
    (cFresh.mul_by 2).mass = some 1 := by
  refine ⟨?_, rfl, ?_, rfl⟩
  · norm_num [cH1, cFresh, ChemicalComposition.fmass, ChemicalComposition.mass,
      ChemicalComposition.calc_mass, ChemicalComposition.new,
      ChemicalComposition.set, insertMap, hSpec, eH, isoH1, lookupIsotope,
      List.find?]
  · norm_num [cFresh, ChemicalComposition.mul_by, mulEntry,
      ChemicalComposition.calc_mass, hSpec, eH, isoH1, lookupIsotope,
      List.find?, esEq, elementEq]

/-- Claim C2 (code bug at the failing input): parsing `"Fe["` — a `[` with no
matching content before the end of input — SUCCEEDS, returning iron with
isotope 0, because the guard `n > i` before the unclosed-bracket error is
always true for a character index `i < n`; the error branch is unreachable. -/
theorem c2_unclosed_bracket_parses_ok :
    ElementSpecification.parse pt0 "Fe[" = Except.ok ⟨eFe, 0⟩ := rfl

/-- Claim C3, counterexample: with `a = {}` and `b = {H: 1}`, `(a + b) - b`
holds an explicit zero entry for `H` that `a` lacks, so the two compositions
are NOT equal under the crate's map equality. -/
theorem c3_add_sub_roundtrip_ne :
    ccEq ((ChemicalComposition.new.add cH1).sub cH1)
      ChemicalComposition.new = false ∧
    ((ChemicalComposition.new.add cH1).sub cH1).composition =
      [(hSpec, 0)] := by decide

/-- Claim C3, amended: for all compositions `a`, `b`, the counts of
`(a + b) - b` and of `a` agree elementwise at every specification (via
`get`); full map equality can still fail because keys only in `b` remain in
the result as explicit zero entries. -/
theorem c3_add_sub_elementwise (a b : ChemicalComposition)
    (s : ElementSpecification) :
    ((a.add b).sub b).get s = a.get s := by
  rw [ChemicalComposition.sub, ChemicalComposition.add, get_sub_from,
    get_add_from]
  ring

/-- Claim C4, counterexample: two specifications over the same element with
isotopes 1 and 2 are unequal, yet the data each feeds to the hasher is
identical (only the element's symbol) — they cannot hash differently. -/
theorem c4_isotopes_hash_equal :
    esEq ⟨eH, 1⟩ ⟨eH, 2⟩ = false ∧
    esHashInput ⟨eH, 1⟩ = esHashInput ⟨eH, 2⟩ := by decide

/-- Claim C4, amended: equality on `ElementSpecification` is the joint pair
(element, isotope); hashing covers only the element (its symbol), so two
specifications with the same element but different isotopes are unequal yet
hash identically. -/
theorem c4_identity_and_hash (a b : ElementSpecification) :
    (esEq a b = true ↔
      (elementEq a.element b.element = true ∧ a.isotope = b.isotope)) ∧
    (esHashInput a = esHashInput b ↔ a.element.symbol = b.element.symbol) ∧
    (a.element = b.element → a.isotope ≠ b.isotope →
      esEq a b = false ∧ esHashInput a = esHashInput b) := by
  refine ⟨?_, Iff.rfl, ?_⟩
  · rw [esEq]
    cases h : elementEq a.element b.element
    · simp [h]
    · simp [h, beq_iff_eq]
  · intro he hiso
    constructor
    · rw [esEq_eq_false_iff, canonKey, canonKey]
      intro hc
      exact hiso (congrArg (fun t => t.2.2) hc)
    · rw [esHashInput, esHashInput, elementHashInput, elementHashInput, he]

/-- Witness for C4's amended theorem at a concrete input. -/
theorem c4_identity_and_hash_witness :
    esEq ⟨eH, 3⟩ ⟨eH, 4⟩ = false ∧
    esHashInput ⟨eH, 3⟩ = esHashInput ⟨eH, 4⟩ :=
  (c4_identity_and_hash ⟨eH, 3⟩ ⟨eH, 4⟩).2.2 rfl (by decide)

/-- Claim C5: looking up a symbol absent from the periodic table fails
(`none`, modelling the panic of `Index<&str>`), and `parse` of a string
whose symbol segment is unknown fails with the element-not-found error, not
a successful result. -/
theorem c5_unknown_symbol_fails (pt : PeriodicTable) :
    (∀ sym, lookupTable pt sym = none ↔ ∀ p ∈ pt, p.1 ≠ sym) ∧
    (∀ s, lookupTable pt (parsedSymbol s) = none →
      ElementSpecification.parse pt s =
        Except.error ParseFailure.elementNotFound) := by
  constructor
  · intro sym
    rw [lookupTable, Option.map_eq_none', List.find?_eq_none]
    constructor
    · intro h p hp
      have := h p hp
      simpa using this
    · intro h p hp
      simpa using h p hp
  · exact fun s h => parse_elementNotFound pt s h

/-- Witness for C5 at a concrete table and unknown symbol. -/
theorem c5_unknown_symbol_fails_witness :
    ElementSpecification.parse pt0 "Xy" =
      Except.error ParseFailure.elementNotFound :=
  (c5_unknown_symbol_fails pt0).2 "Xy" (by decide)

/-- Claim C6: on a well-formed composition, `a * k` multiplies the count of
every present key by `k` (any integer `k`, including zero and negatives,
since `k` ranges over all of `Int`), and keys absent from `a` stay absent. -/
theorem c6_mul_scales_counts (a : ChemicalComposition) (k : Int)
    (s : ElementSpecification) (hwf : a.WF) :
    (a.containsKey s = true → (a.mul k).get s = a.get s * k) ∧
    (a.containsKey s = false → (a.mul k).containsKey s = false) := by
  have hm := mul_by_eq_map a k hwf
  rw [ChemicalComposition.mul] at *
  constructor
  · intro hc
    rw [ChemicalComposition.containsKey, containsKeyL_eq_isSome] at hc
    rw [hm, ChemicalComposition.get, ChemicalComposition.get]
    show (match lookupMap (a.composition.map (fun p => (p.1, p.2 * k))) s with
      | some i => i | none => 0) = _
    rw [lookupMap_map_mul]
    rcases hl : lookupMap a.composition s with _ | v
    · rw [hl] at hc; cases hc
    · rfl
  · intro hc
    rw [ChemicalComposition.containsKey, containsKeyL_eq_isSome] at hc
    rw [hm, ChemicalComposition.containsKey, containsKeyL_eq_isSome]
    show (lookupMap (a.composition.map (fun p => (p.1, p.2 * k))) s).isSome
      = false
    rw [lookupMap_map_mul]
    rcases hl : lookupMap a.composition s with _ | v
    · rfl
    · rw [hl] at hc; cases hc

/-- Witness for C6 at `{H: 1}` with `k = 3`, for a present and an absent
key. -/
theorem c6_mul_scales_counts_witness :
    (cH1.mul 3).get hSpec = cH1.get hSpec * 3 ∧
    (cH1.mul 3).containsKey feSpec = false :=
  ⟨(c6_mul_scales_counts cH1 3 hSpec (by decide)).1 (by decide),
   (c6_mul_scales_counts cH1 3 feSpec (by decide)).2 (by decide)⟩

/-- Inserting at an absent key grows the map by one entry. -/
theorem insertMap_length_absent (m : List CompEntry)
    (s : ElementSpecification) (v : Int) (h : containsKeyL m s = false) :
    (insertMap m s v).length = m.length + 1 := by
  induction m with
  | nil => rfl
  | cons p rest ih =>
    rw [containsKeyL, List.any_cons, Bool.or_eq_false_iff] at h
    rw [insertMap]
    rw [if_neg (by rw [h.1]; exact Bool.false_ne_true)]
    rw [List.length_cons, List.length_cons, ih h.2]

/-- Claim C7: `get` returns the stored count when the key is present and 0
when absent, never fails (it is total), and never inserts — an absent key
stays observably distinct from the explicit zero entry `set(spec, 0)`
creates, which makes the composition unequal to the original. -/
theorem c7_get_semantics (c : ChemicalComposition) (s : ElementSpecification) :
    (c.containsKey s = false → c.get s = 0) ∧
    (∀ v, lookupMap c.composition s = some v → c.get s = v) ∧
    ((c.set s 0).containsKey s = true) ∧
    (c.containsKey s = false → ccEq (c.set s 0) c = false) := by
  refine ⟨?_, ?_, ?_, ?_⟩
  · intro hc
    rw [ChemicalComposition.containsKey, containsKeyL_eq_isSome] at hc
    rw [ChemicalComposition.get]
    rcases hl : lookupMap c.composition s with _ | v
    · rfl
    · rw [hl] at hc; cases hc
  · intro v hv
    rw [ChemicalComposition.get, hv]
  · rw [ChemicalComposition.set, ChemicalComposition.containsKey,
      containsKeyL_eq_isSome]
    show (lookupMap (insertMap c.composition s 0) s).isSome = true
    rw [lookupMap_insert, if_pos rfl]
    rfl
  · intro hc
    rw [ChemicalComposition.containsKey] at hc
    have hlen := insertMap_length_absent c.composition s 0 hc
    rw [ccEq]
    show (((insertMap c.composition s 0).length == c.composition.length) &&
      _) = false
    rw [hlen]
    have : (c.composition.length + 1 == c.composition.length) = false := by
      rw [beq_eq_false_iff_ne]
      omega
    rw [this, Bool.false_and]

/-- Witness for C7 at `{H: 1}` and the absent key `Fe`. -/
theorem c7_get_semantics_witness :
    cH1.get feSpec = 0 ∧ cH1.get hSpec = 1 ∧
    (cH1.set feSpec 0).containsKey feSpec = true ∧
    ccEq (cH1.set feSpec 0) cH1 = false :=
  ⟨(c7_get_semantics cH1 feSpec).1 (by decide),
   (c7_get_semantics cH1 hSpec).2.1 1 (by decide),
   (c7_get_semantics cH1 feSpec).2.2.1,
   (c7_get_semantics cH1 feSpec).2.2.2 (by decide)⟩

/-- Claim C8: `mass` returns the cached value when `mass_cache` is set and
otherwise computes `calc_mass` without storing anything (`mass` does not
change the state); `fmass` computes if needed, stores the result, and
returns it, so a second `fmass` with no intervening mutation returns the
identical value (and state), which also equals `mass` of the original. -/
theorem c8_mass_cache_semantics (c : ChemicalComposition) :
    (∀ v, c.mass_cache = some v → c.mass = some v) ∧
    (c.mass_cache = none → c.mass = c.calc_mass) ∧
    (∀ r c', c.fmass = some (r, c') →
      c'.fmass = some (r, c') ∧ c'.mass = some r ∧ c.mass = some r ∧
      c'.composition = c.composition) := by
  refine ⟨?_, ?_, ?_⟩
  · intro v hv
    rw [ChemicalComposition.mass, hv]
  · intro hv
    rw [ChemicalComposition.mass, hv]
  · intro r c' hf
    rw [ChemicalComposition.fmass] at hf
    rcases hc : c.mass_cache with _ | v
    · rw [hc] at hf
      rcases hm : c.mass with _ | total
      · rw [hm] at hf; cases hf
      · rw [hm] at hf
        have hr : total = r := congrArg Prod.fst (Option.some.injEq _ _ |>.mp hf)
        have hc' : c' = ⟨c.composition, some total⟩ :=
          (congrArg Prod.snd (Option.some.injEq _ _ |>.mp hf)).symm
        subst hr
        subst hc'
        refine ⟨rfl, rfl, rfl, rfl⟩
    · rw [hc] at hf
      have hr : v = r := congrArg Prod.fst (Option.some.injEq _ _ |>.mp hf)
      have hc' : c' = c :=
        (congrArg Prod.snd (Option.some.injEq _ _ |>.mp hf)).symm
      subst hr
      subst hc'
      refine ⟨?_, ?_, ?_, rfl⟩
      · rw [ChemicalComposition.fmass, hc]
      · rw [ChemicalComposition.mass, hc]
      · rw [ChemicalComposition.mass, hc]

/-- Witness for C8: on the cached state `cFresh`, `fmass` is a hit returning
the cached 1 with the state unchanged, and repeats identically. -/
theorem c8_mass_cache_semantics_witness :
    cFresh.fmass = some (1, cFresh) ∧ cFresh.mass = some 1 :=
  have h := (c8_mass_cache_semantics cFresh).2.2 1 cFresh rfl
  ⟨h.1, h.2.1⟩

/-- Claim C9: on well-formed compositions (at most one entry per key class,
as every `HashMap` is), the crate's equality holds exactly when the two full
count mappings agree at every specification — in particular an explicit zero
entry (`some 0`) differs from absence (`none`). -/
theorem c9_eq_iff_mappings (a b : ChemicalComposition)
    (ha : a.WF) (hb : b.WF) :
    ccEq a b = true ↔
      ∀ s, lookupMap a.composition s = lookupMap b.composition s :=
  ⟨fun h s => ccEq_lookup_eq a b ha hb h s, lookup_eq_ccEq a b ha hb⟩

/-- Witness for C9: a composition holding `H` with explicit count 0 is
unequal to the empty composition. -/
theorem c9_eq_iff_mappings_witness :
    ccEq (ChemicalComposition.new.set hSpec 0) ChemicalComposition.new
      = false := by
  have h := c9_eq_iff_mappings (ChemicalComposition.new.set hSpec 0)
    ChemicalComposition.new (by decide) (by decide)
  cases hcc : ccEq (ChemicalComposition.new.set hSpec 0)
      ChemicalComposition.new with
  | false => rfl
  | true =>
    exfalso
    have h2 := h.mp hcc hSpec
    revert h2
    decide

/-- Claim C10: the indexing operator returns the stored count exactly when
the key is present and fails (`none`, modelling the `unwrap` panic) exactly
when it is absent — unlike `get`, which is `index` with default 0. -/
theorem c10_index_unwrap (c : ChemicalComposition)
    (s : ElementSpecification) :
    c.index s = (bif c.containsKey s then some (c.get s) else none) ∧
    c.get s = (c.index s).getD 0 := by
  rw [ChemicalComposition.index, ChemicalComposition.containsKey,
    containsKeyL_eq_isSome]
  rcases hl : lookupMap c.composition s with _ | v <;>
    simp [ChemicalComposition.get, hl]
